import Mathlib

/-!
Verification development for the rusty_stocks predictive engine.

The Rust source is shallowly embedded: f64/f32 arithmetic that only uses
field operations is modelled over the rationals, while the Monte Carlo
simulator (which needs exp and sqrt) is modelled over the reals.  Every
source of randomness is made explicit: the shuffle drawn inside
split_data becomes an index-permutation argument, the standard-normal
draws of the simulator become a function from matrix cells to reals, and
the fitted classifier of the external randomforest crate becomes a
function argument.  Division by zero, which produces NaN in Rust, is the
usual total division of the model; theorems that would be affected carry
a nonemptiness hypothesis.
-/

namespace RustyStocks

/-- The Tomorrow enum of stock.rs: the label of a record. -/
inductive Tomorrow where
  | Increase
  | Decrease
  | Predict
deriving DecidableEq, Repr

/-- The Stock struct of stock.rs.  Modelled from the spec: the visible
stock.rs does not show the per-record return field nor its accessors,
although calculations.rs and lib.rs use them; following section 3 of the
spec, a rational field `ret` holds the stored daily return, and the
first record of a parsed file keeps its initial value 0 because lib.rs
only assigns returns to later records. -/
structure Stock where
  date : String
  open_ : ℚ
  high : ℚ
  low : ℚ
  close : ℚ
  adj_close : ℚ
  volume : ℕ
  tomorrow : Tomorrow
  ret : ℚ
deriving DecidableEq, Repr

instance : Inhabited Stock := ⟨⟨"", 0, 0, 0, 0, 0, 0, Tomorrow.Predict, 0⟩⟩

/-- Stock::get_array of stock.rs: the six-feature vector. -/
def Stock.get_array (s : Stock) : List ℚ :=
  [s.open_, s.high, s.low, s.adj_close, s.close, (s.volume : ℚ)]

/-- Stock::get_label of stock.rs: 1 for Increase, 0 for Decrease, -1 for Predict. -/
def Stock.get_label (s : Stock) : ℚ :=
  match s.tomorrow with
  | Tomorrow.Increase => 1
  | Tomorrow.Decrease => 0
  | Tomorrow.Predict => -1

/-- Modelled from the spec: Stock::get_price is called by lib.rs and
calculations.rs but absent from the visible stock.rs; the labelling rule
of section 3 compares closing prices, so the price of a record is its
close field. -/
def Stock.get_price (s : Stock) : ℚ := s.close

/-- Modelled from the spec: Stock::get_return is called by
calculate_drift but absent from the visible stock.rs; it reads the
stored return field. -/
def Stock.get_return (s : Stock) : ℚ := s.ret

/-- The Rust float-to-usize as-cast: truncation toward zero, saturating
at zero for negative inputs. -/
def f32_to_usize (x : ℚ) : ℕ := (Int.floor x).toNat

/-- split_data of calculations.rs.  The shuffle of the index vector
drawn from the process-global thread_rng is made explicit as the
`indices` argument; the source then slices the first
`(training * len) as usize` shuffled indices into the training set and
the rest into the test set.  Out-of-range slicing or indexing, which
panics in Rust, is modelled as `none`. -/
def split_data (stocks : List Stock) (training : ℚ) (indices : List ℕ) :
    Option (List Stock × List Stock) :=
  let training_index := f32_to_usize (training * (stocks.length : ℚ))
  if training_index ≤ indices.length ∧ ∀ i ∈ indices, i < stocks.length then
    some ((indices.take training_index).map fun i => stocks.getD i default,
          (indices.drop training_index).map fun i => stocks.getD i default)
  else none

/-- The test-accuracy measurement inside run_forest: the fraction of
test records whose predicted label matches their true label. -/
def measured_accuracy (classify : List ℚ → ℚ) (test_set : List Stock) : ℚ :=
  ((test_set.filter fun s => classify s.get_array = s.get_label).length : ℚ) /
    (test_set.length : ℚ)

/-- run_forest of calculations.rs.  Modelled from the spec: the
randomforest crate is an external dependency, so the fitted classifier
is abstracted as the function `fit` from the training set to a
predictor; section 8 of the spec states that the predictor returns
exactly 0.0 or 1.0.  The shuffle consumed by the inner split_data call
is the explicit `indices` argument.  The mutation sequence of the
source is mirrored: measure accuracy, invert it and set the switch flag
when it is below one half, predict the final record, and flip that
prediction when the flag is set. -/
def run_forest (stocks : List Stock) (indices : List ℕ)
    (fit : List Stock → List ℚ → ℚ) : Option (ℚ × ℚ) :=
  let ultimo := stocks.getLastD default
  let dataset := stocks.dropLast
  (split_data dataset 0.9 indices).map fun tt =>
    let classifier := fit tt.1
    let accuracy0 := measured_accuracy classifier tt.2
    let switch_flag := accuracy0 < 0.5
    let accuracy := if accuracy0 < 0.5 then 1 - accuracy0 else accuracy0
    let result0 := classifier ultimo.get_array
    let result := if switch_flag then (if result0 = 1 then 0 else 1) else result0
    (result, accuracy)

/-- calculate_drift of calculations.rs: a running sum of the stored
returns of all records divided by the record count, then a running sum
of squared deviations divided by the record count, returning the
variance-corrected drift and the variance. -/
def calculate_drift (stocks : List Stock) : ℚ × ℚ :=
  let mean := (stocks.foldl (fun acc s => acc + s.get_return) 0) / (stocks.length : ℚ)
  let var := (stocks.foldl (fun acc s => acc + (s.get_return - mean) ^ 2) 0) / (stocks.length : ℚ)
  (mean - 0.5 * var, var)

/-- Arithmetic mean of a list of rationals, as the spec describes it. -/
def listMean (l : List ℚ) : ℚ := l.sum / (l.length : ℚ)

/-- Population variance of a list of rationals, as the spec describes it. -/
def listPopVar (l : List ℚ) : ℚ :=
  (l.map fun x => (x - listMean l) ^ 2).sum / (l.length : ℚ)

/-- The estimator exactly as claim C3 words it: mean and population
variance of the return series that is defined for every record except
the first, with the Ito correction applied. -/
def drift_per_claim (stocks : List Stock) : ℚ × ℚ :=
  let rets := (stocks.drop 1).map Stock.get_return
  (listMean rets - 0.5 * listPopVar rets, listPopVar rets)

/-- The fixed simulation horizon of calculate_daily_returns. -/
def days : ℕ := 30

/-- The fixed trial count of calculate_daily_returns. -/
def trials : ℕ := 50000

/-- The daily multiplicative factor of calculate_daily_returns: the
exponential of drift plus standard deviation times the standard-normal
draw of the given matrix cell.  The draw stream `z` is the explicit
model of the thread_rng samples, one draw per cell. -/
noncomputable def daily_factor (stocks : List Stock) (z : ℕ → ℕ → ℝ) (i j : ℕ) : ℝ :=
  Real.exp (((calculate_drift stocks).1 : ℝ) +
    Real.sqrt ((calculate_drift stocks).2 : ℝ) * z i j)

/-- calculate_daily_returns of calculations.rs: a days-by-trials matrix
of daily factors, one fresh draw per cell. -/
noncomputable def calculate_daily_returns (stocks : List Stock) (z : ℕ → ℕ → ℝ) :
    List (List ℝ) :=
  (List.range days).map fun i => (List.range trials).map fun j => daily_factor stocks z i j

/-- One iteration of the price-path loop: the next row is the pointwise
product of the previous row and a factor row, at each of the `w`
column positions the source iterates over. -/
noncomputable def next_price_path (w : ℕ) (prev r : List ℝ) : List ℝ :=
  (List.range w).map fun j => prev.getD j 0 * r.getD j 0

/-- The row-building loop of calculate_price_paths, carrying the
previously pushed row. -/
noncomputable def paths_from (w : ℕ) (prev : List ℝ) : List (List ℝ) → List (List ℝ)
  | [] => []
  | r :: rs => next_price_path w prev r :: paths_from w (next_price_path w prev r) rs

/-- The price of the final record, as calculate_price_paths reads it;
the Rust indexing panics on an empty vector, so theorems about it carry
a nonemptiness hypothesis. -/
def last_price (stocks : List Stock) : ℚ := (stocks.getLastD default).get_price

/-- calculate_price_paths of calculations.rs: a first row holding the
last known price in every column, then one row per remaining factor row,
each the pointwise product of the previous price row with that factor
row.  Factor row 0 is generated by calculate_daily_returns but never
multiplied in, exactly as in the source. -/
noncomputable def calculate_price_paths (stocks : List Stock) (z : ℕ → ℕ → ℝ) :
    List (List ℝ) :=
  let daily_returns := calculate_daily_returns stocks z
  let w := (daily_returns.headD []).length
  let first_day := (List.range w).map fun _ => ((last_price stocks : ℚ) : ℝ)
  first_day :: paths_from w first_day (daily_returns.drop 1)

/-- Closed form of the matrix entry at row i, column j: the last price
multiplied by the factors of rows 1 through i at column j. -/
noncomputable def priceAt (stocks : List Stock) (z : ℕ → ℕ → ℝ) : ℕ → ℕ → ℝ
  | 0, _ => ((last_price stocks : ℚ) : ℝ)
  | i + 1, j => priceAt stocks z i j * daily_factor stocks z (i + 1) j

/-- One step of the ten-run classification loop of lib.rs: run the
forest, add the vote to the increase or decrease tally, and accumulate
the accuracy. -/
def forest_step (stocks : List Stock) (indices : List ℕ)
    (fit : List Stock → List ℚ → ℚ) (acc : ℕ × ℕ × ℚ) : Option (ℕ × ℕ × ℚ) :=
  (run_forest stocks indices fit).map fun ra =>
    if ra.1 = 1 then (acc.1 + 1, acc.2.1, acc.2.2 + ra.2)
    else (acc.1, acc.2.1 + 1, acc.2.2 + ra.2)

/-- The classification loop of lib.rs over a list of run indices, each
run drawing its own shuffle and fitting its own forest. -/
def forest_runs (stocks : List Stock) (perms : ℕ → List ℕ)
    (fits : ℕ → List Stock → List ℚ → ℚ) :
    List ℕ → ℕ × ℕ × ℚ → Option (ℕ × ℕ × ℚ)
  | [], acc => some acc
  | k :: ks, acc =>
      (forest_step stocks (perms k) (fits k) acc).bind (forest_runs stocks perms fits ks)

/-- The classification part of run in lib.rs: ten forest runs starting
from zeroed tallies, then the reported direction (increase when the
increase tally is at least the decrease tally) and the reported
confidence value, which the source prints as the accumulated accuracy
times ten. -/
def run_classification (stocks : List Stock) (perms : ℕ → List ℕ)
    (fits : ℕ → List Stock → List ℚ → ℚ) : Option (Tomorrow × ℚ) :=
  (forest_runs stocks perms fits (List.range 10) (0, 0, 0)).map fun s =>
    (if s.1 ≥ s.2.1 then Tomorrow.Increase else Tomorrow.Decrease, s.2.2 * 10)

/-- A concrete stock whose numeric fields are all zero. -/
def zeroStock : Stock := ⟨"", 0, 0, 0, 0, 0, 0, Tomorrow.Predict, 0⟩

/-- A concrete stock whose stored return is two. -/
def retTwoStock : Stock := ⟨"", 0, 0, 0, 0, 0, 0, Tomorrow.Predict, 2⟩

/-- A concrete stock whose closing price is one. -/
def oneStock : Stock := ⟨"", 0, 0, 0, 1, 0, 0, Tomorrow.Predict, 0⟩

/-- The Rust float-to-usize cast agrees with the natural floor. -/
lemma f32_to_usize_eq_floor (x : ℚ) : f32_to_usize x = Nat.floor x :=
  Int.floor_toNat x

/-- The cast of zero is zero. -/
lemma f32_to_usize_zero : f32_to_usize 0 = 0 := by
  rw [f32_to_usize_eq_floor]
  exact Nat.floor_zero

/-- Looking every index of a list up in order rebuilds the list. -/
lemma map_getD_range {α : Type} (l : List α) (d : α) :
    (List.range l.length).map (fun i => l.getD i d) = l := by
  refine List.ext_getElem (by simp) ?_
  intro n h1 h2
  simp only [List.getElem_map, List.getElem_range]
  exact List.getD_eq_getElem l d h2

/-- When the slice bound and every index are in range, split_data takes
its normal branch. -/
lemma split_data_eq_of_valid (stocks : List Stock) (training : ℚ) (indices : List ℕ)
    (hlen : f32_to_usize (training * (stocks.length : ℚ)) ≤ indices.length)
    (hmem : ∀ i ∈ indices, i < stocks.length) :
    split_data stocks training indices =
      some ((indices.take (f32_to_usize (training * (stocks.length : ℚ)))).map
              fun i => stocks.getD i default,
            (indices.drop (f32_to_usize (training * (stocks.length : ℚ)))).map
              fun i => stocks.getD i default) := by
  simp only [split_data]
  rw [if_pos ⟨hlen, hmem⟩]

/-- C4: for every non-empty input and every training fraction strictly
between zero and one, with the internal shuffle made explicit as a
permutation of the index range, split_data returns a training set of
exactly floor of fraction times length records and a test set of the
remainder; the two index slices are disjoint and the two outputs
together are a permutation of the input, so every input record lands in
exactly one of them. -/
theorem split_data_partition (stocks : List Stock) (training : ℚ) (indices : List ℕ)
    (hne : stocks ≠ []) (h0 : 0 < training) (h1 : training < 1)
    (hperm : indices.Perm (List.range stocks.length)) :
    ∃ tr te, split_data stocks training indices = some (tr, te) ∧
      tr.length = Nat.floor (training * (stocks.length : ℚ)) ∧
      tr.length + te.length = stocks.length ∧
      List.Disjoint (indices.take (f32_to_usize (training * (stocks.length : ℚ))))
        (indices.drop (f32_to_usize (training * (stocks.length : ℚ)))) ∧
      (tr ++ te).Perm stocks := by
  have hlen : indices.length = stocks.length := by simpa using hperm.length_eq
  have hmem : ∀ i ∈ indices, i < stocks.length := by
    intro i hi
    have hi2 : i ∈ List.range stocks.length := hperm.mem_iff.mp hi
    simpa using hi2
  have hposn : 0 < stocks.length := List.length_pos.mpr hne
  have hpos : (0 : ℚ) < (stocks.length : ℚ) := by exact_mod_cast hposn
  have hnonneg : 0 ≤ training * (stocks.length : ℚ) := le_of_lt (mul_pos h0 hpos)
  have hti_lt : f32_to_usize (training * (stocks.length : ℚ)) < stocks.length := by
    rw [f32_to_usize_eq_floor, Nat.floor_lt hnonneg]
    calc training * (stocks.length : ℚ) < 1 * (stocks.length : ℚ) :=
          mul_lt_mul_of_pos_right h1 hpos
      _ = (stocks.length : ℚ) := one_mul _
  have hti_le : f32_to_usize (training * (stocks.length : ℚ)) ≤ indices.length := by
    omega
  refine ⟨_, _, split_data_eq_of_valid stocks training indices hti_le hmem, ?_, ?_, ?_, ?_⟩
  · rw [f32_to_usize_eq_floor] at hti_lt ⊢
    simp only [List.length_map, List.length_take]
    omega
  · simp only [List.length_map, List.length_take, List.length_drop]
    omega
  · have hnodup : indices.Nodup := hperm.nodup_iff.mpr (List.nodup_range _)
    have hsplit := List.take_append_drop
      (f32_to_usize (training * (stocks.length : ℚ))) indices
    rw [← hsplit] at hnodup
    exact (List.nodup_append.mp hnodup).2.2
  · rw [← List.map_append]
    rw [List.take_append_drop]
    have hmap := hperm.map (fun i => stocks.getD i default)
    rwa [map_getD_range stocks default] at hmap

/-- C4 witness: a concrete two-record split with fraction one half and
the reversed shuffle. -/
theorem split_data_partition_witness :
    (([zeroStock, retTwoStock] : List Stock) ≠ [] ∧ (0 : ℚ) < 1 / 2 ∧ (1 : ℚ) / 2 < 1 ∧
      ([1, 0] : List ℕ).Perm (List.range ([zeroStock, retTwoStock] : List Stock).length)) ∧
    ∃ tr te, split_data [zeroStock, retTwoStock] (1 / 2) [1, 0] = some (tr, te) ∧
      tr.length = Nat.floor ((1 / 2 : ℚ) * (([zeroStock, retTwoStock] : List Stock).length : ℚ)) ∧
      tr.length + te.length = ([zeroStock, retTwoStock] : List Stock).length ∧
      List.Disjoint
        (([1, 0] : List ℕ).take
          (f32_to_usize ((1 / 2 : ℚ) * (([zeroStock, retTwoStock] : List Stock).length : ℚ))))
        (([1, 0] : List ℕ).drop
          (f32_to_usize ((1 / 2 : ℚ) * (([zeroStock, retTwoStock] : List Stock).length : ℚ)))) ∧
      (tr ++ te).Perm [zeroStock, retTwoStock] :=
  ⟨⟨by decide, by norm_num, by norm_num, by decide⟩,
    split_data_partition [zeroStock, retTwoStock] (1 / 2) [1, 0]
      (by decide) (by norm_num) (by norm_num) (by decide)⟩

/-- C10: with the internal shuffle made explicit as a permutation of the
index range, split_data returns normally, with no error value and no
panic, for every training fraction between zero and one inclusive; on an
empty input it returns a pair of two empty vectors. -/
theorem split_data_total (stocks : List Stock) (training : ℚ) (indices : List ℕ)
    (h0 : 0 ≤ training) (h1 : training ≤ 1)
    (hperm : indices.Perm (List.range stocks.length)) :
    (∃ p, split_data stocks training indices = some p) ∧
      (stocks = [] → split_data stocks training indices = some ([], [])) := by
  have hlen : indices.length = stocks.length := by simpa using hperm.length_eq
  have hmem : ∀ i ∈ indices, i < stocks.length := by
    intro i hi
    have hi2 : i ∈ List.range stocks.length := hperm.mem_iff.mp hi
    simpa using hi2
  have hti_le : f32_to_usize (training * (stocks.length : ℚ)) ≤ indices.length := by
    rw [f32_to_usize_eq_floor, hlen]
    have hle : training * (stocks.length : ℚ) ≤ (stocks.length : ℚ) := by
      calc training * (stocks.length : ℚ) ≤ 1 * (stocks.length : ℚ) :=
            mul_le_mul_of_nonneg_right h1 (by positivity)
        _ = (stocks.length : ℚ) := one_mul _
    calc Nat.floor (training * (stocks.length : ℚ)) ≤ Nat.floor ((stocks.length : ℚ)) :=
          Nat.floor_le_floor hle
      _ = stocks.length := Nat.floor_natCast _
  constructor
  · exact ⟨_, split_data_eq_of_valid stocks training indices hti_le hmem⟩
  · intro hnil
    subst hnil
    have hind : indices = [] := by simpa using hperm
    subst hind
    rw [split_data_eq_of_valid [] training [] (by simp [f32_to_usize_zero]) (by simp)]
    simp

/-- C10 witness: the empty input with fraction one half and the empty
shuffle. -/
theorem split_data_total_witness :
    ((0 : ℚ) ≤ 1 / 2 ∧ (1 : ℚ) / 2 ≤ 1 ∧
      ([] : List ℕ).Perm (List.range ([] : List Stock).length)) ∧
    ((∃ p, split_data [] (1 / 2) [] = some p) ∧
      (([] : List Stock) = [] → split_data [] (1 / 2) [] = some ([], []))) :=
  ⟨⟨by norm_num, by norm_num, by decide⟩,
    split_data_total [] (1 / 2) [] (by norm_num) (by norm_num) (by decide)⟩

/-- C8 counterexample: the claim says split_data fails with
InvalidFractionError at fractions zero and one and with
EmptyDatasetError on empty input, but at each of those inputs the code
returns an ordinary pair and signals nothing. -/
theorem split_data_no_error_cex :
    split_data [zeroStock] 0 [0] = some ([], [zeroStock]) ∧
    split_data [zeroStock] 1 [0] = some ([zeroStock], []) ∧
    split_data ([] : List Stock) (1 / 2) [] = some ([], []) := by
  refine ⟨?_, ?_, ?_⟩
  · rw [split_data_eq_of_valid [zeroStock] 0 [0]
      (by simp [f32_to_usize_zero]) (by simp)]
    norm_num [f32_to_usize_zero, List.getD]
  · have hti : f32_to_usize ((1 : ℚ) * ((([zeroStock] : List Stock).length : ℕ) : ℚ)) = 1 := by
      rw [f32_to_usize_eq_floor, one_mul, Nat.floor_natCast]
      simp
    rw [split_data_eq_of_valid [zeroStock] 1 [0] (by rw [hti]; simp) (by simp), hti]
    norm_num [List.getD]
  · rw [split_data_eq_of_valid [] (1 / 2) [] (by simp [f32_to_usize_zero]) (by simp)]
    simp

/-- C8 amended: split_data validates nothing: no error type exists in
the code, fraction zero yields an empty training set and a test set
holding every record, fraction one yields a training set holding every
record and an empty test set, and an empty input yields two empty
vectors. -/
theorem split_data_endpoints (stocks : List Stock) (indices : List ℕ)
    (hperm : indices.Perm (List.range stocks.length)) :
    (∃ te, split_data stocks 0 indices = some ([], te) ∧ te.Perm stocks) ∧
    (∃ tr, split_data stocks 1 indices = some (tr, []) ∧ tr.Perm stocks) ∧
    (stocks = [] → split_data stocks (1 / 2) indices = some ([], [])) := by
  have hlen : indices.length = stocks.length := by simpa using hperm.length_eq
  have hmem : ∀ i ∈ indices, i < stocks.length := by
    intro i hi
    have hi2 : i ∈ List.range stocks.length := hperm.mem_iff.mp hi
    simpa using hi2
  have hmap := hperm.map (fun i => stocks.getD i default)
  rw [map_getD_range stocks default] at hmap
  refine ⟨?_, ?_, ?_⟩
  · have hti : f32_to_usize ((0 : ℚ) * (stocks.length : ℚ)) = 0 := by
      rw [zero_mul, f32_to_usize_zero]
    refine ⟨indices.map fun i => stocks.getD i default, ?_, hmap⟩
    rw [split_data_eq_of_valid stocks 0 indices (by omega) hmem, hti]
    simp
  · have hti : f32_to_usize ((1 : ℚ) * (stocks.length : ℚ)) = indices.length := by
      rw [f32_to_usize_eq_floor, one_mul, Nat.floor_natCast, hlen]
    refine ⟨indices.map fun i => stocks.getD i default, ?_, hmap⟩
    rw [split_data_eq_of_valid stocks 1 indices (le_of_eq hti) hmem, hti]
    simp
  · intro hnil
    subst hnil
    have hind : indices = [] := by simpa using hperm
    subst hind
    rw [split_data_eq_of_valid [] (1 / 2) [] (by simp [f32_to_usize_zero]) (by simp)]
    simp

/-- C8 amended witness: one record and the identity shuffle. -/
theorem split_data_endpoints_witness :
    (([0] : List ℕ).Perm (List.range ([zeroStock] : List Stock).length)) ∧
    ((∃ te, split_data [zeroStock] 0 [0] = some ([], te) ∧ te.Perm [zeroStock]) ∧
     (∃ tr, split_data [zeroStock] 1 [0] = some (tr, []) ∧ tr.Perm [zeroStock]) ∧
     (([zeroStock] : List Stock) = [] → split_data [zeroStock] (1 / 2) [0] = some ([], []))) :=
  ⟨by decide, split_data_endpoints [zeroStock] [0] (by decide)⟩

/-- Folding addition of a projected value over a list is the sum of the
projections. -/
lemma foldl_add_map (f : Stock → ℚ) (l : List Stock) :
    ∀ a : ℚ, l.foldl (fun acc s => acc + f s) a = a + (l.map f).sum := by
  induction l with
  | nil => intro a; simp
  | cons s l ih =>
      intro a
      simp only [List.foldl_cons, List.map_cons, List.sum_cons, ih (a + f s)]
      ring

/-- C3 counterexample: on a two-record input whose stored returns are
zero and two, calculate_drift averages over both records and divides by
two, while the claim averages only the single defined return of the
second record; the two results differ. -/
theorem calculate_drift_cex :
    calculate_drift [zeroStock, retTwoStock] ≠ drift_per_claim [zeroStock, retTwoStock] := by
  simp only [calculate_drift, drift_per_claim, listMean, listPopVar, zeroStock, retTwoStock,
    Stock.get_return, List.foldl_cons, List.foldl_nil, List.drop_succ_cons, List.drop_zero,
    List.map_cons, List.map_nil, List.sum_cons, List.sum_nil, List.length_cons,
    List.length_nil, Prod.mk.injEq, ne_eq, not_and]
  intro h
  norm_num at h

/-- C3 amended: calculate_drift returns the Ito-corrected pair built
from the arithmetic mean and population variance of the stored returns
of all records, the first record included, dividing by the full record
count. -/
theorem calculate_drift_all_records (stocks : List Stock) (hne : stocks ≠ []) :
    calculate_drift stocks =
      (listMean (stocks.map Stock.get_return) -
        0.5 * listPopVar (stocks.map Stock.get_return),
       listPopVar (stocks.map Stock.get_return)) := by
  clear hne
  simp only [calculate_drift, listMean, listPopVar, List.length_map, List.map_map]
  rw [foldl_add_map, foldl_add_map]
  simp only [zero_add]
  rfl

/-- C3 amended witness: the same two-record input evaluates as the
amended statement says. -/
theorem calculate_drift_all_records_witness :
    (([zeroStock, retTwoStock] : List Stock) ≠ []) ∧
    calculate_drift [zeroStock, retTwoStock] =
      (listMean ([zeroStock, retTwoStock].map Stock.get_return) -
        0.5 * listPopVar ([zeroStock, retTwoStock].map Stock.get_return),
       listPopVar ([zeroStock, retTwoStock].map Stock.get_return)) :=
  ⟨by decide, calculate_drift_all_records [zeroStock, retTwoStock] (by decide)⟩

/-- Unfolding run_forest once the inner split is known: the returned
pair is the conditionally flipped prediction and the conditionally
inverted accuracy. -/
lemma run_forest_eq (stocks : List Stock) (indices : List ℕ)
    (fit : List Stock → List ℚ → ℚ) (tr te : List Stock)
    (hsplit : split_data stocks.dropLast 0.9 indices = some (tr, te)) :
    run_forest stocks indices fit =
      some ((if measured_accuracy (fit tr) te < 0.5
               then (if fit tr (stocks.getLastD default).get_array = 1 then 0 else 1)
               else fit tr (stocks.getLastD default).get_array),
            (if measured_accuracy (fit tr) te < 0.5
               then 1 - measured_accuracy (fit tr) te
               else measured_accuracy (fit tr) te)) := by
  simp only [run_forest, hsplit, Option.map_some']

/-- C5: per run, when the measured test accuracy is strictly below one
half, run_forest returns the flipped prediction together with one minus
the measured accuracy; when the measured accuracy is at least one half
it returns both unchanged.  The classifier prediction is zero or one,
as the external forest only emits trained labels. -/
theorem run_forest_inversion (stocks : List Stock) (indices : List ℕ)
    (fit : List Stock → List ℚ → ℚ) (tr te : List Stock)
    (hsplit : split_data stocks.dropLast 0.9 indices = some (tr, te))
    (hlab : fit tr (stocks.getLastD default).get_array = 0 ∨
            fit tr (stocks.getLastD default).get_array = 1) :
    (measured_accuracy (fit tr) te < 0.5 →
      run_forest stocks indices fit =
        some (1 - fit tr (stocks.getLastD default).get_array,
              1 - measured_accuracy (fit tr) te)) ∧
    (0.5 ≤ measured_accuracy (fit tr) te →
      run_forest stocks indices fit =
        some (fit tr (stocks.getLastD default).get_array,
              measured_accuracy (fit tr) te)) := by
  rw [run_forest_eq stocks indices fit tr te hsplit]
  constructor
  · intro hm
    rw [if_pos hm, if_pos hm]
    rcases hlab with h | h
    · rw [h]
      norm_num
    · rw [h]
      norm_num
  · intro hm
    have hm2 : ¬ measured_accuracy (fit tr) te < 0.5 := not_lt.mpr hm
    rw [if_neg hm2, if_neg hm2]

/-- The measured accuracy is never negative. -/
lemma measured_accuracy_nonneg (classify : List ℚ → ℚ) (te : List Stock) :
    0 ≤ measured_accuracy classify te := by
  unfold measured_accuracy
  positivity

/-- On a non-empty test set the measured accuracy is at most one. -/
lemma measured_accuracy_le_one (classify : List ℚ → ℚ) (te : List Stock)
    (hte : te ≠ []) : measured_accuracy classify te ≤ 1 := by
  unfold measured_accuracy
  have hpos : (0 : ℚ) < (te.length : ℚ) := by
    exact_mod_cast List.length_pos.mpr hte
  rw [div_le_one hpos]
  exact_mod_cast List.length_filter_le _ te

/-- C9: whenever the test set produced inside run_forest is non-empty,
the accuracy run_forest returns lies in the closed interval from one
half to one: the below-chance inversion makes smaller returned values
unreachable. -/
theorem run_forest_accuracy_range (stocks : List Stock) (indices : List ℕ)
    (fit : List Stock → List ℚ → ℚ) (tr te : List Stock) (r a : ℚ)
    (hsplit : split_data stocks.dropLast 0.9 indices = some (tr, te))
    (hte : te ≠ [])
    (hrun : run_forest stocks indices fit = some (r, a)) :
    0.5 ≤ a ∧ a ≤ 1 := by
  rw [run_forest_eq stocks indices fit tr te hsplit] at hrun
  have hm0 := measured_accuracy_nonneg (fit tr) te
  have hm1 := measured_accuracy_le_one (fit tr) te hte
  have ha : a = if measured_accuracy (fit tr) te < 0.5
      then 1 - measured_accuracy (fit tr) te else measured_accuracy (fit tr) te :=
    ((Prod.mk.injEq _ _ _ _).mp (Option.some.inj hrun)).2.symm
  rw [ha]
  split_ifs with h
  · constructor
    · linarith
    · linarith
  · constructor
    · linarith
    · exact hm1

/-- The constant classifier that predicts one regardless of training
data and features. -/
def constOneFit : List Stock → List ℚ → ℚ := fun _ _ => 1

/-- Concrete split evaluation shared by the run_forest witnesses. -/
lemma split_zero_single :
    split_data ([zeroStock, zeroStock] : List Stock).dropLast 0.9 [0] =
      some ([], [zeroStock]) := by
  have hd : ([zeroStock, zeroStock] : List Stock).dropLast = [zeroStock] := rfl
  rw [hd]
  have hti : f32_to_usize ((0.9 : ℚ) * ((([zeroStock] : List Stock).length : ℕ) : ℚ)) = 0 := by
    rw [f32_to_usize_eq_floor, Nat.floor_eq_zero]
    norm_num
  rw [split_data_eq_of_valid [zeroStock] 0.9 [0] (by rw [hti]; simp) (by simp), hti]
  simp

/-- The constant-one classifier scores zero on the single unlabeled
record, whose label is the sentinel minus one. -/
lemma measured_accuracy_constOne_zero :
    measured_accuracy (constOneFit []) [zeroStock] = 0 := by
  norm_num [measured_accuracy, constOneFit, zeroStock, Stock.get_label,
    List.filter_cons, List.filter_nil]

/-- Concrete run_forest evaluation shared by the run_forest witnesses. -/
lemma run_forest_on_pair :
    run_forest [zeroStock, zeroStock] [0] constOneFit = some (0, 1) := by
  rw [run_forest_eq [zeroStock, zeroStock] [0] constOneFit [] [zeroStock] split_zero_single]
  rw [measured_accuracy_constOne_zero]
  norm_num [constOneFit]

/-- C5 witness: a concrete run whose measured accuracy is zero, so the
inversion branch applies. -/
theorem run_forest_inversion_witness :
    (split_data ([zeroStock, zeroStock] : List Stock).dropLast 0.9 [0] =
        some ([], [zeroStock]) ∧
     (constOneFit [] (([zeroStock, zeroStock] : List Stock).getLastD default).get_array = 0 ∨
      constOneFit [] (([zeroStock, zeroStock] : List Stock).getLastD default).get_array = 1)) ∧
    ((measured_accuracy (constOneFit []) [zeroStock] < 0.5 →
        run_forest [zeroStock, zeroStock] [0] constOneFit =
          some (1 - constOneFit [] (([zeroStock, zeroStock] : List Stock).getLastD default).get_array,
                1 - measured_accuracy (constOneFit []) [zeroStock])) ∧
     (0.5 ≤ measured_accuracy (constOneFit []) [zeroStock] →
        run_forest [zeroStock, zeroStock] [0] constOneFit =
          some (constOneFit [] (([zeroStock, zeroStock] : List Stock).getLastD default).get_array,
                measured_accuracy (constOneFit []) [zeroStock]))) :=
  ⟨⟨split_zero_single, Or.inr rfl⟩,
    run_forest_inversion [zeroStock, zeroStock] [0] constOneFit [] [zeroStock]
      split_zero_single (Or.inr rfl)⟩

/-- C9 witness: the same concrete run returns accuracy one, inside the
claimed interval. -/
theorem run_forest_accuracy_range_witness :
    (split_data ([zeroStock, zeroStock] : List Stock).dropLast 0.9 [0] =
        some ([], [zeroStock]) ∧
     ([zeroStock] : List Stock) ≠ [] ∧
     run_forest [zeroStock, zeroStock] [0] constOneFit = some (0, 1)) ∧
    ((0.5 : ℚ) ≤ 1 ∧ (1 : ℚ) ≤ 1) :=
  ⟨⟨split_zero_single, by decide, run_forest_on_pair⟩,
    run_forest_accuracy_range [zeroStock, zeroStock] [0] constOneFit [] [zeroStock] 0 1
      split_zero_single (by decide) run_forest_on_pair⟩

/-- Running the classification loop over any list of run indices whose
runs all succeed tallies the votes for one, the votes against, and the
accumulated accuracy. -/
lemma forest_runs_spec (stocks : List Stock) (perms : ℕ → List ℕ)
    (fits : ℕ → List Stock → List ℚ → ℚ) (r a : ℕ → ℚ) :
    ∀ l : List ℕ, (∀ k ∈ l, run_forest stocks (perms k) (fits k) = some (r k, a k)) →
      ∀ (ni nd : ℕ) (s : ℚ),
        forest_runs stocks perms fits l (ni, nd, s) =
          some (ni + (l.filter fun k => r k = 1).length,
                nd + (l.filter fun k => ¬ r k = 1).length,
                s + (l.map a).sum) := by
  intro l
  induction l with
  | nil =>
      intro _ ni nd s
      simp [forest_runs]
  | cons k ks ih =>
      intro h ni nd s
      have hk := h k (List.mem_cons_self k ks)
      have hks : ∀ k2 ∈ ks, run_forest stocks (perms k2) (fits k2) = some (r k2, a k2) :=
        fun k2 hk2 => h k2 (List.mem_cons_of_mem k hk2)
      simp only [forest_runs, forest_step, hk, Option.map_some', Option.some_bind]
      by_cases hr : r k = 1
      · rw [if_pos hr, ih hks (ni + 1) nd (s + a k)]
        simp only [Option.some.injEq, Prod.mk.injEq, List.filter_cons, List.map_cons,
          List.sum_cons, hr]
        norm_num
        refine ⟨by omega, by ring⟩
      · rw [if_neg hr, ih hks ni (nd + 1) (s + a k)]
        simp only [Option.some.injEq, Prod.mk.injEq, List.filter_cons, List.map_cons,
          List.sum_cons, hr]
        norm_num
        refine ⟨by omega, by ring⟩

/-- C6: the orchestrator performs exactly ten classification runs, run
indices zero through nine; it reports Increase exactly when the count of
runs predicting one is at least the count of the other runs, ties going
to Increase, and the reported confidence equals the mean of the ten
possibly inverted accuracies expressed as a zero-to-hundred percentage. -/
theorem orchestrator_aggregation (stocks : List Stock) (perms : ℕ → List ℕ)
    (fits : ℕ → List Stock → List ℚ → ℚ) (r a : ℕ → ℚ)
    (h : ∀ k < 10, run_forest stocks (perms k) (fits k) = some (r k, a k)) :
    run_classification stocks perms fits =
      some ((if ((List.range 10).filter fun k => r k = 1).length ≥
                ((List.range 10).filter fun k => ¬ r k = 1).length
             then Tomorrow.Increase else Tomorrow.Decrease),
            (((List.range 10).map a).sum / 10) * 100) := by
  have h2 : ∀ k ∈ List.range 10, run_forest stocks (perms k) (fits k) = some (r k, a k) :=
    fun k hk => h k (List.mem_range.mp hk)
  unfold run_classification
  rw [forest_runs_spec stocks perms fits r a (List.range 10) h2 0 0 0]
  simp only [Option.map_some', zero_add]
  have harith : ((List.range 10).map a).sum * 10 =
      (((List.range 10).map a).sum / 10) * 100 := by
    ring
  rw [harith]

/-- C6 witness: ten identical successful runs each returning vote zero
and accuracy one produce a Decrease verdict with confidence one
hundred. -/
theorem orchestrator_aggregation_witness :
    run_classification [zeroStock, zeroStock] (fun _ => [0]) (fun _ => constOneFit) =
      some (Tomorrow.Decrease, 100) := by
  rw [orchestrator_aggregation [zeroStock, zeroStock] (fun _ => [0]) (fun _ => constOneFit)
    (fun _ => 0) (fun _ => 1) (fun k _ => run_forest_on_pair)]
  have hfalse : ((0 : ℚ) = 1) = False := by
    simp only [eq_iff_iff, iff_false]
    norm_num
  simp only [hfalse, decide_False, not_false_iff, decide_True, List.filter_false,
    List.filter_true, List.length_nil, List.length_range]
  norm_num [List.map_const', List.sum_replicate]

/-- Positional lookup in a map over an index range evaluates the mapped
function. -/
lemma getD_map_range {α : Type} (d : α) (f : ℕ → α) {n j : ℕ} (h : j < n) :
    ((List.range n).map f).getD j d = f j := by
  rw [List.getD_eq_getElem ((List.range n).map f) d (by simpa using h)]
  simp

/-- The index range of the simulation horizon, split at its head. -/
lemma range_days_eq : List.range days = 0 :: List.range' 1 29 := by decide

/-- The row-building loop turns consecutive factor rows into consecutive
closed-form price rows. -/
lemma paths_from_factors (stocks : List Stock) (z : ℕ → ℕ → ℝ) :
    ∀ n k : ℕ,
      paths_from trials ((List.range trials).map fun j => priceAt stocks z k j)
          ((List.range' (k + 1) n).map fun i =>
            (List.range trials).map fun j => daily_factor stocks z i j) =
        (List.range' (k + 1) n).map fun i =>
          (List.range trials).map fun j => priceAt stocks z i j := by
  intro n
  induction n with
  | zero =>
      intro k
      simp [paths_from]
  | succ m ih =>
      intro k
      simp only [List.range'_succ, List.map_cons]
      have hnext : next_price_path trials
          ((List.range trials).map fun j => priceAt stocks z k j)
          ((List.range trials).map fun j => daily_factor stocks z (k + 1) j) =
          (List.range trials).map fun j => priceAt stocks z (k + 1) j := by
        unfold next_price_path
        refine List.map_congr_left ?_
        intro j hj
        have hj2 : j < trials := List.mem_range.mp hj
        rw [getD_map_range 0 _ hj2, getD_map_range 0 _ hj2]
        rfl
      show next_price_path trials _ _ :: paths_from trials (next_price_path trials _ _) _ = _
      rw [hnext, ih (k + 1)]

/-- Closed form of calculate_price_paths: row i, column j holds the
closed-form price of day i, trial j. -/
lemma calculate_price_paths_eq (stocks : List Stock) (z : ℕ → ℕ → ℝ) :
    calculate_price_paths stocks z =
      (List.range days).map fun i =>
        (List.range trials).map fun j => priceAt stocks z i j := by
  simp only [calculate_price_paths, calculate_daily_returns]
  rw [range_days_eq]
  simp only [List.map_cons, List.headD_cons, List.length_map, List.length_range,
    List.drop_succ_cons, List.drop_zero]
  have hfd : ((List.range trials).map fun _ => ((last_price stocks : ℚ) : ℝ)) =
      (List.range trials).map fun j => priceAt stocks z 0 j := rfl
  rw [hfd]
  rw [show (1 : ℕ) = 0 + 1 from rfl]
  rw [paths_from_factors stocks z 29 0]

/-- The path matrix has one row per simulated day. -/
lemma price_paths_length (stocks : List Stock) (z : ℕ → ℕ → ℝ) :
    (calculate_price_paths stocks z).length = days := by
  rw [calculate_price_paths_eq]
  simp

/-- Row lookup in the path matrix. -/
lemma price_paths_row (stocks : List Stock) (z : ℕ → ℕ → ℝ) {i : ℕ} (hi : i < days) :
    (calculate_price_paths stocks z).getD i [] =
      (List.range trials).map fun j => priceAt stocks z i j := by
  rw [calculate_price_paths_eq]
  exact getD_map_range [] _ hi

/-- Entry lookup in the path matrix. -/
lemma price_paths_entry (stocks : List Stock) (z : ℕ → ℕ → ℝ) {i j : ℕ}
    (hi : i < days) (hj : j < trials) :
    ((calculate_price_paths stocks z).getD i []).getD j 0 = priceAt stocks z i j := by
  rw [price_paths_row stocks z hi]
  exact getD_map_range 0 _ hj

/-- On a non-empty input the modelled last price is the price of the
final record. -/
lemma last_price_eq_getLast (stocks : List Stock) (h : stocks ≠ []) :
    last_price stocks = (stocks.getLast h).get_price := by
  unfold last_price
  rw [List.getLastD_eq_getLast?, List.getLast?_eq_getLast stocks h]
  rfl

/-- C1: on any non-empty record list, with the standard-normal draw
stream explicit, the path matrix has thirty rows, row zero holds the
price of the last record in every one of the fifty thousand trial
columns, and each later row within the horizon satisfies the
multiplicative recurrence with factor exp of drift plus the square root
of the variance times the draw of that day and trial; the day index of
the recurrence ranges over the Rust half-open range from one to the
horizon. -/
theorem monte_carlo_recurrence (stocks : List Stock) (z : ℕ → ℕ → ℝ) (hne : stocks ≠ []) :
    (calculate_price_paths stocks z).length = 30 ∧
    (∀ j < 50000, ((calculate_price_paths stocks z).getD 0 []).getD j 0 =
      (((stocks.getLast hne).get_price : ℚ) : ℝ)) ∧
    (∀ i, 1 ≤ i → i < 30 → ∀ j < 50000,
      ((calculate_price_paths stocks z).getD i []).getD j 0 =
        ((calculate_price_paths stocks z).getD (i - 1) []).getD j 0 *
          Real.exp (((calculate_drift stocks).1 : ℝ) +
            Real.sqrt ((calculate_drift stocks).2 : ℝ) * z i j)) := by
  refine ⟨?_, ?_, ?_⟩
  · rw [price_paths_length]
    rfl
  · intro j hj
    rw [price_paths_entry stocks z (by norm_num [days]) hj]
    show ((last_price stocks : ℚ) : ℝ) = _
    rw [last_price_eq_getLast stocks hne]
  · intro i h1 h2 j hj
    obtain ⟨m, rfl⟩ : ∃ m, i = m + 1 := ⟨i - 1, by omega⟩
    rw [price_paths_entry stocks z h2 hj]
    rw [show m + 1 - 1 = m from rfl]
    rw [price_paths_entry stocks z (Nat.lt_of_succ_lt h2) hj]
    rfl

/-- C1 witness: one record with price one and the zero draw stream. -/
theorem monte_carlo_recurrence_witness :
    (([oneStock] : List Stock) ≠ []) ∧
    ((calculate_price_paths [oneStock] (fun _ _ => 0)).length = 30 ∧
     (∀ j < 50000, ((calculate_price_paths [oneStock] (fun _ _ => 0)).getD 0 []).getD j 0 =
       ((([oneStock].getLast (List.cons_ne_nil oneStock [])).get_price : ℚ) : ℝ)) ∧
     (∀ i, 1 ≤ i → i < 30 → ∀ j < 50000,
       ((calculate_price_paths [oneStock] (fun _ _ => 0)).getD i []).getD j 0 =
         ((calculate_price_paths [oneStock] (fun _ _ => 0)).getD (i - 1) []).getD j 0 *
           Real.exp (((calculate_drift [oneStock]).1 : ℝ) +
             Real.sqrt ((calculate_drift [oneStock]).2 : ℝ) * (fun _ _ => (0 : ℝ)) i j))) :=
  ⟨List.cons_ne_nil oneStock [],
    monte_carlo_recurrence [oneStock] (fun _ _ => 0) (List.cons_ne_nil oneStock [])⟩

/-- Every closed-form price is positive when the last price is. -/
lemma priceAt_pos (stocks : List Stock) (z : ℕ → ℕ → ℝ) (h : 0 < last_price stocks) :
    ∀ i j, 0 < priceAt stocks z i j := by
  intro i
  induction i with
  | zero =>
      intro j
      show (0 : ℝ) < ((last_price stocks : ℚ) : ℝ)
      exact_mod_cast h
  | succ m ih =>
      intro j
      show 0 < priceAt stocks z m j * daily_factor stocks z (m + 1) j
      exact mul_pos (ih j) (Real.exp_pos _)

/-- C2 counterexample: with a last record whose price is zero, the
matrix exists but its first entry is zero, so not every entry is
strictly positive; the claim fails without a positivity assumption on
the last known price. -/
theorem price_paths_pos_cex :
    ¬ ∀ row ∈ calculate_price_paths [zeroStock] (fun _ _ => 0), ∀ x ∈ row, 0 < x := by
  intro hall
  have hrow : ((List.range trials).map fun j => priceAt [zeroStock] (fun _ _ => 0) 0 j) ∈
      calculate_price_paths [zeroStock] (fun _ _ => 0) := by
    rw [calculate_price_paths_eq]
    exact List.mem_map_of_mem _ (List.mem_range.mpr (by norm_num [days]))
  have hx : priceAt [zeroStock] (fun _ _ => 0) 0 0 ∈
      ((List.range trials).map fun j => priceAt [zeroStock] (fun _ _ => 0) 0 j) :=
    List.mem_map_of_mem _ (List.mem_range.mpr (by norm_num [trials]))
  have h := hall _ hrow _ hx
  have hzero : priceAt [zeroStock] (fun _ _ => 0) 0 0 = ((0 : ℚ) : ℝ) := rfl
  rw [hzero] at h
  norm_num at h

/-- C2 amended: on a non-empty input whose last record has a strictly
positive price, the matrix has thirty rows of fifty thousand entries
each, every entry is strictly positive, and row zero repeats the last
known price in every trial column. -/
theorem price_paths_shape_pos (stocks : List Stock) (z : ℕ → ℕ → ℝ) (hne : stocks ≠ [])
    (hpos : 0 < (stocks.getLast hne).get_price) :
    (calculate_price_paths stocks z).length = 30 ∧
    (∀ row ∈ calculate_price_paths stocks z, row.length = 50000) ∧
    (∀ row ∈ calculate_price_paths stocks z, ∀ x ∈ row, 0 < x) ∧
    (∀ j < 50000, ((calculate_price_paths stocks z).getD 0 []).getD j 0 =
      (((stocks.getLast hne).get_price : ℚ) : ℝ)) := by
  have hlp : 0 < last_price stocks := by
    rw [last_price_eq_getLast stocks hne]
    exact hpos
  refine ⟨?_, ?_, ?_, ?_⟩
  · rw [price_paths_length]
    rfl
  · intro row hrow
    rw [calculate_price_paths_eq] at hrow
    obtain ⟨i, _, rfl⟩ := List.mem_map.mp hrow
    simp [trials]
  · intro row hrow x hx
    rw [calculate_price_paths_eq] at hrow
    obtain ⟨i, _, rfl⟩ := List.mem_map.mp hrow
    obtain ⟨j, _, rfl⟩ := List.mem_map.mp hx
    exact priceAt_pos stocks z hlp i j
  · intro j hj
    rw [price_paths_entry stocks z (by norm_num [days]) hj]
    show ((last_price stocks : ℚ) : ℝ) = _
    rw [last_price_eq_getLast stocks hne]

/-- C2 amended witness: one record with price one. -/
theorem price_paths_shape_pos_witness :
    (([oneStock] : List Stock) ≠ [] ∧
      0 < ([oneStock].getLast (List.cons_ne_nil oneStock [])).get_price) ∧
    ((calculate_price_paths [oneStock] (fun _ _ => 0)).length = 30 ∧
     (∀ row ∈ calculate_price_paths [oneStock] (fun _ _ => 0), row.length = 50000) ∧
     (∀ row ∈ calculate_price_paths [oneStock] (fun _ _ => 0), ∀ x ∈ row, 0 < x) ∧
     (∀ j < 50000, ((calculate_price_paths [oneStock] (fun _ _ => 0)).getD 0 []).getD j 0 =
       ((([oneStock].getLast (List.cons_ne_nil oneStock [])).get_price : ℚ) : ℝ))) :=
  ⟨⟨List.cons_ne_nil oneStock [], by decide⟩,
    price_paths_shape_pos [oneStock] (fun _ _ => 0)
      (List.cons_ne_nil oneStock []) (by decide)⟩

/-- C7 counterexample: split_data draws its shuffle from the
process-global thread_rng rather than a seed parameter; both listed
permutations are reachable shuffles of the same two-record input, and
they give different outputs even though every explicit argument of the
call is identical. -/
theorem randomness_not_explicit_cex :
    ([0, 1] : List ℕ).Perm (List.range 2) ∧ ([1, 0] : List ℕ).Perm (List.range 2) ∧
    split_data [zeroStock, retTwoStock] (1 / 2) [0, 1] ≠
      split_data [zeroStock, retTwoStock] (1 / 2) [1, 0] := by
  refine ⟨by decide, by decide, ?_⟩
  have hti : f32_to_usize ((1 / 2 : ℚ) *
      ((([zeroStock, retTwoStock] : List Stock).length : ℕ) : ℚ)) = 1 := by
    rw [f32_to_usize_eq_floor, Nat.floor_eq_iff (by norm_num)]
    norm_num
  rw [split_data_eq_of_valid _ _ _ (by rw [hti]; norm_num) (by simp),
      split_data_eq_of_valid _ _ _ (by rw [hti]; norm_num) (by simp), hti]
  simp only [List.take_succ_cons, List.take_zero, List.drop_succ_cons, List.drop_zero,
    List.map_cons, List.map_nil, List.getD_cons_zero, List.getD_cons_succ]
  decide

/-- Prices computed from two draw streams that agree on the consumed
cells agree. -/
lemma priceAt_congr (stocks : List Stock) (z z2 : ℕ → ℕ → ℝ) (j : ℕ) (hj : j < 50000)
    (h : ∀ i < 30, ∀ j2 < 50000, z i j2 = z2 i j2) :
    ∀ i, i < 30 → priceAt stocks z i j = priceAt stocks z2 i j := by
  intro i
  induction i with
  | zero =>
      intro _
      rfl
  | succ m ih =>
      intro hm
      show priceAt stocks z m j * daily_factor stocks z (m + 1) j =
        priceAt stocks z2 m j * daily_factor stocks z2 (m + 1) j
      rw [ih (by omega)]
      unfold daily_factor
      rw [h (m + 1) (by omega) j hj]

/-- C7 amended: the splitter, forest and simulator receive no seed; each
draws from the global generator, and the output is a function of the
input together with the drawn values only.  In particular the simulator
output depends on nothing beyond the thirty-by-fifty-thousand block of
standard-normal draws it consumes: two draw streams agreeing there give
identical path matrices. -/
theorem simulator_depends_on_draws (stocks : List Stock) (z z2 : ℕ → ℕ → ℝ)
    (h : ∀ i < 30, ∀ j < 50000, z i j = z2 i j) :
    calculate_price_paths stocks z = calculate_price_paths stocks z2 := by
  rw [calculate_price_paths_eq, calculate_price_paths_eq]
  refine List.map_congr_left ?_
  intro i hi
  refine List.map_congr_left ?_
  intro j hj
  have hi30 : i < 30 := by simpa [days] using List.mem_range.mp hi
  have hj5 : j < 50000 := by simpa [trials] using List.mem_range.mp hj
  exact priceAt_congr stocks z z2 j hj5 h i hi30

/-- C7 amended witness: the zero stream and a stream that differs only
outside the consumed block give identical matrices. -/
theorem simulator_depends_on_draws_witness :
    calculate_price_paths [oneStock] (fun _ _ => 0) =
      calculate_price_paths [oneStock] (fun i _ => if i < 30 then 0 else 1) :=
  simulator_depends_on_draws [oneStock] (fun _ _ => 0)
    (fun i _ => if i < 30 then 0 else 1)
    (fun i hi _ _ => by simp [hi])

end RustyStocks
